import Mathlib

/-!
Verification of the ChEMBLdb-query v1 pipeline (`src/db_llm_query_v1.py`).

Shallow embedding conventions:
* Python `int` is modelled by `Nat`/`Int` (no overflow: Python ints are unbounded);
* Python `float` values that the pipeline compares and floors (judge scores,
  token budgets) are modelled by exact rationals `ℚ`; the only float constant
  involved is `0.6`, whose multiplication-then-`int()` is modelled exactly as
  `⌊a * 3 / 5⌋`;
* Python strings are `String`/`List Char`; the regular expressions of the
  LIMIT stripper are embedded as an explicit token matcher (ASCII classes,
  which is what the inputs use);
* calls to LLM providers, the database and the filesystem are modelled by
  explicit input lists (one entry per call outcome) and an effect trace.
-/

set_option maxRecDepth 10000

namespace ChemblV1

/-- Python's ASCII whitespace class, as used by `\s` and `str.strip()`. -/
def pyIsSpace (c : Char) : Bool :=
  c = ' ' || c = '\t' || c = '\n' || c = '\r' || c = '\x0b' || c = '\x0c'

/-- Python's ASCII digit class `\d` (on the ASCII inputs at hand). -/
def pyIsDigit (c : Char) : Bool :=
  '0' ≤ c && c ≤ '9'

/-- Python's word-character class `\w` (ASCII model): alphanumeric or underscore. -/
def isWordChar (c : Char) : Bool :=
  c.isAlphanum || c = '_'

/-- Python `str.lower()` on one character (ASCII model). -/
def lowerChar (c : Char) : Char :=
  if 'A' ≤ c && c ≤ 'Z' then Char.ofNat (c.toNat + 32) else c

/-- Python `str.strip()` (ASCII whitespace model). -/
def pyStrip (s : String) : String :=
  String.mk (((s.toList.dropWhile pyIsSpace).reverse.dropWhile pyIsSpace).reverse)

/-- Python slice `l[:k]` for a possibly negative `k`. -/
def pySliceTo (k : Int) (l : List Char) : List Char :=
  if 0 ≤ k then l.take k.toNat else l.take (l.length - (-k).toNat)

/-- Python slice `l[-m:]` (with an arbitrary integer `m`, as the code writes
`iterations[-self.history_window:]`).  Note `-0` is just `0`, so `m = 0`
yields the whole list. -/
def pyTailSlice {α : Type} (m : Int) (l : List α) : List α :=
  if 0 < m then l.drop (l.length - m.toNat)
  else if m = 0 then l
  else l.drop ((-m).toNat)

/-! ### Model scheduler (`cic_find_primes`, `cic_schedule`, `generate_model_schedule`) -/

/-- Inner marking loop of the sieve: `sieve[j::step] = False`, run for `fuel`
steps (the caller passes `fuel = arr.size`, which covers every in-range
position; `Array.setD` ignores out-of-range writes). -/
def sieveMarkN (arr : Array Bool) (step j : Nat) : Nat → Array Bool
  | 0 => arr
  | k + 1 => sieveMarkN (arr.setD j false) step (j + step) k

/-- Outer loop of the sieve over `i = 2, 3, …` for `count` iterations
(`for i in range(2, int(limit**0.5) + 1)`). -/
def sieveLoopN (arr : Array Bool) (i : Nat) : Nat → Array Bool
  | 0 => arr
  | k + 1 =>
    sieveLoopN (if arr.getD i false then sieveMarkN arr i (i * i) arr.size else arr) (i + 1) k

/-- Largest `k ≤ bound` with `k * k ≤ n` (structural helper for `floorSqrt`). -/
def floorSqrtFrom (n : Nat) : Nat → Nat
  | 0 => 0
  | k + 1 => if (k + 1) * (k + 1) ≤ n then k + 1 else floorSqrtFrom n k

/-- Integer square root, modelling Python's `int(limit**0.5)` (exact on the
perfect square 100 that the program uses). -/
def floorSqrt (n : Nat) : Nat := floorSqrtFrom n n

/-- `cic_find_primes` from the source: sieve of Eratosthenes up to `limit`. -/
def cic_find_primes (limit : Nat) : List Nat :=
  let sieve0 := ((Array.mkArray (limit + 1) true).setD 0 false).setD 1 false
  let sieve := sieveLoopN sieve0 2 (floorSqrt limit + 1 - 2)
  (List.range (limit + 1)).filter (fun i => sieve.getD i false)

/-- `cic_schedule` from the source: `schedule[i] = (i * primes[i % len(primes)]) % 233`. -/
def cic_schedule (n : Nat) : List Nat :=
  let primes := cic_find_primes 100
  (List.range n).map (fun i => (i * primes.getD (i % primes.length) 0) % 233)

/-- The `random` branch of `generate_model_schedule`.  `draws j` models the
`j`-th result of `random.randint(0, num_models - 1)`; `last` is `last_idx`
(initially `-1`). -/
def random_schedule_go (models : List String) (draws : Nat → Nat) :
    Nat → Int → Nat → List String
  | _, _, 0 => []
  | j, last, rem + 1 =>
    let idx0 := draws j
    let idx := if (idx0 : Int) = last && models.length > 1
               then (idx0 + 1) % models.length else idx0
    models.getD idx "" :: random_schedule_go models draws (j + 1) (idx : Int) rem

/-- `generate_model_schedule` from the source.  `draws` supplies the random
draws used (only) by the `random` policy; an invalid cycle method raises
`ValueError`, modelled as `none`. -/
def generate_model_schedule (num_retries : Nat) (models : List String)
    (cycle_method : String) (draws : Nat → Nat) : Option (List String) :=
  if models.length = 0 then some []
  else if cycle_method = "random" then
    some (random_schedule_go models draws 0 (-1) num_retries)
  else if cycle_method = "orderly" then
    some ((List.range num_retries).map (fun i => models.getD (i % models.length) ""))
  else if cycle_method = "cicada" then
    some ((cic_schedule num_retries).map (fun pos => models.getD (pos % models.length) ""))
  else none

/-- The spec's reference prime table: all primes up to 100. -/
def spec_primes : List Nat :=
  [2, 3, 5, 7, 11, 13, 17, 19, 23, 29, 31, 37, 41, 43, 47,
   53, 59, 61, 67, 71, 73, 79, 83, 89, 97]

/-! ### Rolling history window (`_build_messages_for_up` / `_build_messages_for_sql`
/ `_build_judge_user_content`) -/

/-- The list of iteration blocks rendered into a prompt body:
`iterations[-self.history_window:]`, as sliced by all three message builders
(and pre-sliced identically in `query` itself). -/
def history_window_blocks {α : Type} (history_window : Int) (iterations : List α) :
    List α :=
  pyTailSlice history_window iterations

/-! ### Result sampling (`sample_result_rows`, `sample_result_rows_stratified`) -/

/-- Python `s.replace("\n", "\\n")`. -/
def escapeNewlines (s : String) : String :=
  String.mk ((s.toList.map (fun c => if c = '\n' then ['\\', 'n'] else [c])).flatten)

/-- `_truncate_cell`: `str(v)` (`None` → `"NULL"`), newlines escaped, and cells
longer than `max_len` cut to `s[:max_len - 3] + "..."`. -/
def truncate_cell (v : Option String) (max_len : Nat) : String :=
  let s := escapeNewlines (match v with | none => "NULL" | some t => t)
  if s.length > max_len then
    String.mk (pySliceTo ((max_len : Int) - 3) s.toList) ++ "..."
  else s

/-- The positional label of sampled row `idx` in a table of `n` rows:
`'head' if idx < 3 else ('tail' if idx >= n - 3 else 'middle')` (Python's int
subtraction `n - 3` may be negative exactly when the Nat subtraction is 0 and
`idx ≥ 3` fails, so the two agree). -/
def position_label (n idx : Nat) : String :=
  if idx < 3 then "head" else if n - 3 ≤ idx then "tail" else "middle"

/-- The shared final labelling loop of `sample_result_rows` and
`sample_result_rows_stratified`: pair each sampled row with
`"{position} (row {idx+1})"` and truncate its cells.  `n` is the full table's
row count, `sampled` the taken rows, `indices` their original indices. -/
def emit_sample_rows (n : Nat) (sampled : List (List (Option String)))
    (indices : List Nat) (max_cell_len : Nat) : List (String × List String) :=
  (List.range sampled.length).map (fun li =>
    let idx := indices.getD li li
    let row := sampled.getD li []
    (position_label n idx ++ " (row " ++ toString (idx + 1) ++ ")",
     row.map (fun v => truncate_cell v max_cell_len)))

/-- Insert into an ascending list. -/
def insertSorted (x : Nat) : List Nat → List Nat
  | [] => [x]
  | y :: r => if x ≤ y then x :: y :: r else y :: insertSorted x r

/-- Ascending insertion sort. -/
def sortNat (l : List Nat) : List Nat := l.foldr insertSorted []

/-- Drop adjacent duplicates of a sorted list. -/
def dedupSorted : List Nat → List Nat
  | [] => []
  | [x] => [x]
  | x :: y :: r => if x = y then dedupSorted (y :: r) else x :: dedupSorted (y :: r)

/-- Python `sorted(set(l))`. -/
def sortedSet (l : List Nat) : List Nat := dedupSorted (sortNat l)

/-- The head/middle/tail index choice of `sample_result_rows` when
`max_samples ≤ 9 < n`. -/
def head_mid_tail_indices (n max_samples : Nat) : List Nat :=
  let part1 := List.range (min 3 n)
  let mid :=
    if n > 6 then
      let mid_start := n / 2 - 1
      (List.range (min 3 (n - mid_start))).map (fun i => mid_start + i)
    else []
  let tl :=
    if n > 9 then (List.range 3).map (fun i => n - 3 + i) else []
  (sortedSet (part1 ++ mid ++ tl)).take max_samples

/-- Round half to even, modelling Python's `round` on the exact-rational model
of the float arithmetic in the evenly-spaced branch. -/
def qRound (q : ℚ) : Int :=
  let f := ⌊q⌋
  let r := q - (f : ℚ)
  if r > 1/2 then f + 1
  else if r < 1/2 then f
  else if f % 2 = 0 then f else f + 1

/-- Append to `acc` the smallest indices of `range n` not yet present, until it
has `target` elements (the padding loop of the evenly-spaced branch). -/
def pad_go (target : Nat) (acc : List Nat) : List Nat → List Nat
  | [] => acc
  | i :: rest =>
    if target ≤ acc.length then acc
    else if i ∈ acc then pad_go target acc rest
    else pad_go target (acc ++ [i]) rest

/-- The evenly-spaced index choice of `sample_result_rows` when
`n > max_samples > 9`: `round(i * (n-1)/(max_samples-1))` for each `i`,
deduplicated and sorted, padded with missing indices up to `max_samples`. -/
def evenly_spaced_pad (n max_samples : Nat) : List Nat :=
  if max_samples ≥ n then List.range n
  else
    let step : ℚ := ((n : ℚ) - 1) / ((max_samples : ℚ) - 1)
    let base := sortedSet ((List.range max_samples).map
      (fun i => (qRound ((i : ℚ) * step)).toNat))
    let padded :=
      if base.length < max_samples then pad_go max_samples base (List.range n) else base
    sortNat (padded.take max_samples)

/-- `sample_result_rows` from the source, rows given as lists of optional
strings.  The `try df.take(...) except` fallback of polars is modelled by the
`indices.all (· < n)` test (polars raises on an out-of-range index). -/
def sample_result_rows (rows : List (List (Option String)))
    (max_samples : Nat) (max_cell_len : Nat) : List (String × List String) :=
  if rows.length = 0 then []
  else
    let n := rows.length
    let indices :=
      if n ≤ max_samples then List.range n
      else if max_samples ≤ 9 then head_mid_tail_indices n max_samples
      else evenly_spaced_pad n max_samples
    if indices.all (fun i => i < n) then
      emit_sample_rows n (indices.filterMap (fun i => rows[i]?)) indices max_cell_len
    else
      emit_sample_rows n (rows.take (min max_samples n))
        (List.range ((rows.take (min max_samples n)).length)) max_cell_len

/-! ### Result summarizer sizing (`_estimate_tokens`,
`_estimate_sample_row_tokens`, `_choose_sample_params`) -/

/-- `_estimate_tokens`: `max(1, int(len(text)/4))`, and 0 for empty text. -/
def estimate_tokens (text : String) : Nat :=
  if text = "" then 0 else max 1 (text.length / 4)

/-- Python `repr` of a cell string (ASCII model, single quotes). -/
def pyReprStr (s : String) : String := "'" ++ s ++ "'"

/-- Python `str` of a tuple of strings. -/
def pyReprTuple (cells : List String) : String :=
  match cells with
  | [c] => "(" ++ pyReprStr c ++ ",)"
  | _ => "(" ++ String.intercalate ", " (cells.map pyReprStr) ++ ")"

/-- `_estimate_sample_row_tokens`: average of `len(str(truncated_row)) + 20`
over the first `sample_rows` rows (the float average is truncated by
`int(...)`, i.e. floored), fed through `_estimate_tokens` on `'X' * avg`. -/
def estimate_sample_row_tokens (rows : List (List (Option String)))
    (max_cell_len : Nat) (sample_rows : Nat) : Nat :=
  if rows.length = 0 then 0
  else
    let sample := rows.take (min sample_rows rows.length)
    let total := sample.foldl
      (fun acc row =>
        acc + (pyReprTuple (row.map (fun v => truncate_cell v max_cell_len))).length + 20)
      0
    let avg := total / sample.length
    estimate_tokens (String.mk (List.replicate avg 'X'))

/-- The `for alt_len in (50, 40, 30)` loop at the end of `_choose_sample_params`. -/
def alt_len_search (rows : List (List (Option String)))
    (budget min_samples target max_cell_len : Nat) : List Nat → Nat × Nat
  | [] => (target, max_cell_len)
  | alt :: rest =>
    let tpr := estimate_sample_row_tokens rows alt 200
    if tpr = 0 then alt_len_search rows budget min_samples target max_cell_len rest
    else if min_samples ≤ max 1 (budget / tpr) then (min_samples, alt)
    else alt_len_search rows budget min_samples target max_cell_len rest

/-- `_choose_sample_params`: pick `(sample row count, cell width)` for
`res_mode = sample`.  `available_tokens` is `None` or a non-negative int
(`query` clamps it with `max(0, ...)`), and `int(available_tokens * 0.6)` is
modelled exactly as `avail * 3 / 5`. -/
def choose_sample_params (rows : List (List (Option String)))
    (available_tokens : Option Nat) (min_samples max_samples max_cell_len : Nat) :
    Nat × Nat :=
  if rows.length = 0 then (0, max_cell_len)
  else
    let cap := min rows.length max_samples
    match available_tokens with
    | none => (max 1 (min cap (max min_samples cap)), max_cell_len)
    | some avail =>
      if avail = 0 then (max 1 (min cap (max min_samples cap)), max_cell_len)
      else
        let budget := avail * 3 / 5
        let tokens_per_row := estimate_sample_row_tokens rows max_cell_len 200
        if tokens_per_row = 0 then
          (max 1 (min cap (max min_samples cap)), max_cell_len)
        else
          let max_by_budget := max 1 (budget / tokens_per_row)
          let target := min cap (max min_samples (min max_samples max_by_budget))
          if target < min_samples ∧ min_samples ≤ rows.length then
            alt_len_search rows budget min_samples target max_cell_len [50, 40, 30]
          else (target, max_cell_len)

/-! ### The unrequested-LIMIT stripper (`_user_requested_limit`,
`_strip_unrequested_limit`)

The regular expressions are embedded as explicit token sequences matched by
maximal munch; for these patterns (whitespace runs, literals, digit runs, word
boundaries, with each optional group expanded into ordered alternatives)
maximal munch coincides with Python's leftmost-greedy semantics: shrinking a
`\s+`/`\d+` run exposes a character of the same class where the next token
demands a different one, so no backtracking alternative can succeed where the
maximal munch fails. -/

/-- Regex tokens: a (case-insensitively matched, lowercase) literal, `\s+`,
`\d+`, and `\b`. -/
inductive RTok where
  | lit : List Char → RTok
  | ws1 : RTok
  | digits1 : RTok
  | wb : RTok

/-- Match a lowercase literal case-insensitively; returns the last consumed
input character and the rest. -/
def dropLit : List Char → Option Char → List Char → Option (Option Char × List Char)
  | [], prev, s => some (prev, s)
  | _ :: _, _, [] => none
  | c :: cs, _, x :: xs => if lowerChar x = c then dropLit cs (some x) xs else none

/-- Greedily extend a character-class run. -/
def munchGo (p : Char → Bool) (last : Char) : List Char → Option Char × List Char
  | [] => (some last, [])
  | c :: rest => if p c then munchGo p c rest else (some last, c :: rest)

/-- Match one-or-more characters of a class, greedily (`\s+` / `\d+`). -/
def munch1 (p : Char → Bool) (s : List Char) : Option (Option Char × List Char) :=
  match s with
  | [] => none
  | c :: rest => if p c then some (munchGo p c rest) else none

/-- Is the optional character a word character (`none` counts as not)? -/
def optWord (o : Option Char) : Bool :=
  match o with
  | none => false
  | some c => isWordChar c

/-- Word-boundary test between the previously consumed character and the next. -/
def atBoundary (prev : Option Char) (s : List Char) : Bool :=
  optWord prev != optWord s.head?

/-- Greedy matcher for a token sequence; `prev` is the character before the
match position (needed by `\b`).  Returns the last consumed character and the
unconsumed rest. -/
def matchToks : List RTok → Option Char → List Char → Option (Option Char × List Char)
  | [], prev, s => some (prev, s)
  | RTok.lit cs :: ts, prev, s =>
    (dropLit cs prev s).bind (fun pr => matchToks ts pr.1 pr.2)
  | RTok.ws1 :: ts, _, s =>
    (munch1 pyIsSpace s).bind (fun pr => matchToks ts pr.1 pr.2)
  | RTok.digits1 :: ts, _, s =>
    (munch1 pyIsDigit s).bind (fun pr => matchToks ts pr.1 pr.2)
  | RTok.wb :: ts, prev, s =>
    if atBoundary prev s then matchToks ts prev s else none

/-- `re.search`: try the match at every position, threading the previous
character for `\b`. -/
def searchAux (toks : List RTok) : Option Char → List Char → Bool
  | prev, [] => (matchToks toks prev []).isSome
  | prev, c :: rest => (matchToks toks prev (c :: rest)).isSome || searchAux toks (some c) rest

/-- The thirteen cap/top-N patterns of `_user_requested_limit`, with `rows?`
expanded into its two alternatives (equivalent for `re.search` existence). -/
def cap_patterns : List (List RTok) :=
  [[RTok.wb, RTok.lit ("limit".toList), RTok.ws1, RTok.digits1, RTok.wb],
   [RTok.wb, RTok.lit ("top".toList), RTok.ws1, RTok.digits1, RTok.wb],
   [RTok.wb, RTok.lit ("first".toList), RTok.ws1, RTok.digits1, RTok.wb],
   [RTok.wb, RTok.lit ("last".toList), RTok.ws1, RTok.digits1, RTok.wb],
   [RTok.wb, RTok.lit ("at".toList), RTok.ws1, RTok.lit ("most".toList),
    RTok.ws1, RTok.digits1, RTok.wb],
   [RTok.wb, RTok.lit ("no".toList), RTok.ws1, RTok.lit ("more".toList),
    RTok.ws1, RTok.lit ("than".toList), RTok.ws1, RTok.digits1, RTok.wb],
   [RTok.wb, RTok.lit ("maximum".toList), RTok.ws1, RTok.digits1, RTok.wb],
   [RTok.wb, RTok.lit ("minimum".toList), RTok.ws1, RTok.digits1, RTok.wb],
   [RTok.wb, RTok.lit ("only".toList), RTok.ws1, RTok.digits1, RTok.wb],
   [RTok.wb, RTok.lit ("return".toList), RTok.ws1, RTok.digits1, RTok.wb],
   [RTok.wb, RTok.lit ("show".toList), RTok.ws1, RTok.digits1, RTok.wb],
   [RTok.wb, RTok.lit ("rows".toList), RTok.ws1, RTok.digits1, RTok.wb],
   [RTok.wb, RTok.lit ("row".toList), RTok.ws1, RTok.digits1, RTok.wb],
   [RTok.wb, RTok.lit ("sample".toList), RTok.ws1, RTok.digits1, RTok.wb]]

/-- `_user_requested_limit`: does the (lowered) combined text contain any
cap/top-N pattern? -/
def user_requested_limit (text : String) : Bool :=
  cap_patterns.any (fun p => searchAux p none text.toList)

/-- The `re.search(r"\blimit\b", sql, IGNORECASE)` gate of
`_strip_unrequested_limit`. -/
def limit_word_toks : List RTok := [RTok.wb, RTok.lit ("limit".toList), RTok.wb]

/-- The clause regex `\s+limit\s+\d+\s+offset\s+\d+` (optional group taken —
tried first, as the greedy engine does). -/
def clause_toks_offset : List RTok :=
  [RTok.ws1, RTok.lit ("limit".toList), RTok.ws1, RTok.digits1,
   RTok.ws1, RTok.lit ("offset".toList), RTok.ws1, RTok.digits1]

/-- The clause regex `\s+limit\s+\d+` (optional group skipped). -/
def clause_toks : List RTok :=
  [RTok.ws1, RTok.lit ("limit".toList), RTok.ws1, RTok.digits1]

/-- One match attempt of `\s+limit\s+\d+(?:\s+offset\s+\d+)?` at the head of
`s`, returning the unconsumed rest. -/
def clause_match (s : List Char) : Option (List Char) :=
  ((matchToks clause_toks_offset none s).map Prod.snd) <|>
    ((matchToks clause_toks none s).map Prod.snd)

/-- One match attempt of `\s+;` at the head of `s` (no case-folding needed for
`;`). -/
def ws_semi_match (s : List Char) : Option (List Char) :=
  (munch1 pyIsSpace s).bind (fun pr =>
    match pr.2 with
    | c :: r => if c = ';' then some r else none
    | [] => none)

/-- `re.sub`-style scan: at each position, when the matcher succeeds emit the
replacement and continue after the match, else keep the character.  The fuel
bounds the number of scan steps; every successful match of the patterns used
here consumes at least one character, so `length + 1` steps suffice. -/
def replaceScan (m : List Char → Option (List Char)) (repl : List Char) :
    Nat → List Char → List Char
  | 0, s => s
  | _ + 1, [] => []
  | fuel + 1, c :: rest =>
    match m (c :: rest) with
    | some rem => repl ++ replaceScan m repl fuel rem
    | none => c :: replaceScan m repl fuel rest

/-- `re.subn(pattern, repl, s)[0]` over the whole string. -/
def py_subn_all (m : List Char → Option (List Char)) (repl : List Char)
    (s : List Char) : List Char :=
  replaceScan m repl (s.length + 1) s

/-- `_strip_unrequested_limit` from the source: return the SQL unchanged when
the option is off, when `UQ + "\n" + UP` requests a cap, or when the SQL has no
`limit` word; otherwise drop every `\s+limit\s+\d+(?:\s+offset\s+\d+)?`
occurrence, collapse `\s+;` to `;`, and strip. -/
def strip_unrequested_limit (strip_opt : Bool) (sql uq up : String) : String :=
  if strip_opt = false then sql
  else if user_requested_limit (uq ++ "\n" ++ up) then sql
  else if searchAux limit_word_toks none sql.toList = false then sql
  else
    let cleaned := py_subn_all clause_match [] sql.toList
    let cleaned2 := py_subn_all ws_semi_match [';'] cleaned
    pyStrip (String.mk cleaned2)

/-- Does `needle` start `hay`? -/
def startsWithSeq : List Char → List Char → Bool
  | [], _ => true
  | _ :: _, [] => false
  | c :: cs, x :: xs => (x = c) && startsWithSeq cs xs

/-- Does `needle` occur contiguously inside `hay`? -/
def hasSeq (needle : List Char) : List Char → Bool
  | [] => startsWithSeq needle []
  | x :: xs => startsWithSeq needle (x :: xs) || hasSeq needle xs

/-- No whitespace character directly before a semicolon. -/
def noWsSemiPair : List Char → Bool
  | [] => true
  | [_] => true
  | a :: b :: r => !(pyIsSpace a && b = ';') && noWsSemiPair (b :: r)

/-- A non-empty all-whitespace run. -/
def AllWS (w : List Char) : Prop := w ≠ [] ∧ ∀ c ∈ w, pyIsSpace c = true

/-- A non-empty all-digit run. -/
def AllDigits (d : List Char) : Prop := d ≠ [] ∧ ∀ c ∈ d, pyIsDigit c = true

/-- A trailing `LIMIT n [OFFSET m]` clause: whitespace, the word `limit` in any
case, whitespace, digits, and optionally whitespace + `offset` + whitespace +
digits. -/
def IsLimitClause (clause : List Char) : Prop :=
  ∃ w1 lw w2 d1 tl,
    AllWS w1 ∧ AllWS w2 ∧ AllDigits d1 ∧
    lw.map lowerChar = "limit".toList ∧ (∀ c ∈ lw, isWordChar c = true) ∧
    (tl = [] ∨ ∃ w3 ow w4 d2, AllWS w3 ∧ AllWS w4 ∧ AllDigits d2 ∧
      ow.map lowerChar = "offset".toList ∧ tl = w3 ++ ow ++ w4 ++ d2) ∧
    clause = w1 ++ lw ++ w2 ++ d1 ++ tl

/-- A statement body for which clause removal is exact: no `limit` substring
(case-insensitively), no whitespace directly before a `;`, and no leading or
trailing whitespace. -/
def BodyClean (body : List Char) : Prop :=
  hasSeq ("limit".toList) (body.map lowerChar) = false ∧
  noWsSemiPair body = true ∧
  (∀ c, body.head? = some c → pyIsSpace c = false) ∧
  (∀ c, body.getLast? = some c → pyIsSpace c = false)

/-! ### Judge-output parsing (`parse_judge_output`) -/

/-- Python `str.upper()` on one character (ASCII model). -/
def upperChar (c : Char) : Char :=
  if 'a' ≤ c && c ≤ 'z' then Char.ofNat (c.toNat - 32) else c

/-- A decoded JSON value (the result of `json.loads` on the brace-delimited
candidate), as far as `parse_judge_output` inspects it. -/
inductive PyVal where
  | pstr (s : String)
  | pnum (q : ℚ)
  | pbool (b : Bool)
  | pnone
  | pother

/-- A decoded JSON object (Python dict). -/
def PyDict := List (String × PyVal)

/-- Python `dict.get`. -/
def dictGet (d : PyDict) (k : String) : Option PyVal :=
  (d.find? (fun kv => kv.1 == k)).map (fun kv => kv.2)

/-- Python `str(x).strip().upper()` as applied to the `decision` field.  The
reprs of numbers and containers are abstracted by placeholder strings: no such
repr equals `YES` or `NO`. -/
def pyStrUpperStrip (v : PyVal) : String :=
  match v with
  | PyVal.pstr s => String.mk ((pyStrip s).toList.map upperChar)
  | PyVal.pbool true => "TRUE"
  | PyVal.pbool false => "FALSE"
  | PyVal.pnone => "NONE"
  | PyVal.pnum _ => "<NUM>"
  | PyVal.pother => "<OBJ>"

/-- Numeric value of a digit string. -/
def digitsVal (l : List Char) : Nat :=
  l.foldl (fun acc c => acc * 10 + (c.toNat - '0'.toNat)) 0

/-- Parse a decimal numeral (optional sign, digits, optional fraction) — the
fragment of Python `float(str)` relevant to judge scores. -/
def parseDecimal (s : String) : Option ℚ :=
  let cs0 := (pyStrip s).toList
  let sgn : ℚ :=
    match cs0 with
    | '-' :: _ => -1
    | _ => 1
  let cs :=
    match cs0 with
    | '-' :: r => r
    | '+' :: r => r
    | r => r
  let intPart := cs.takeWhile pyIsDigit
  let rest := cs.dropWhile pyIsDigit
  match rest with
  | [] =>
    if intPart.isEmpty then none
    else some (sgn * (digitsVal intPart : ℚ))
  | '.' :: frac =>
    if frac.all pyIsDigit && (!intPart.isEmpty || !frac.isEmpty) then
      some (sgn * ((digitsVal intPart : ℚ)
        + (digitsVal frac : ℚ) / ((10 : ℚ) ^ frac.length)))
    else none
  | _ => none

/-- Python `float(x)` on the (possibly missing) `score` field: numbers pass
through, bools become 0/1, numeric strings parse; `None`, containers and a
missing key raise, i.e. give `nil`. -/
def pyFloat (v : Option PyVal) : Option ℚ :=
  match v with
  | some (PyVal.pnum q) => some q
  | some (PyVal.pbool b) => some (if b then 1 else 0)
  | some (PyVal.pstr s) => parseDecimal s
  | _ => none

/-- `parse_judge_output` after the fence-stripping / brace-location /
`json.loads` step: `decoded = none` covers empty text, a missing `{…}`
candidate, a JSON parse failure and a non-dict decode, each of which the
source ends in `(nil, nil)`. -/
def parse_judge_output (decoded : Option PyDict) : Option Bool × Option ℚ :=
  match decoded with
  | none => (none, none)
  | some obj =>
    let decision_raw := pyStrUpperStrip ((dictGet obj "decision").getD (PyVal.pstr ""))
    let decision : Option Bool :=
      if decision_raw = "YES" then some true
      else if decision_raw = "NO" then some false
      else none
    let score : Option ℚ :=
      (pyFloat (dictGet obj "score")).bind (fun q => if 0 ≤ q ∧ q ≤ 1 then some q else none)
    match decision, score with
    | some d, some s => (some d, some s)
    | _, _ => (none, none)

/-! ### Judge-call retry loop (`ChEMBLLLMQuery._call_judge`)

Each judge response text is abstracted by the result of `parse_judge_output`
on it (the loop inspects a response only through that parse, and the final
fallback re-parses the same text, deterministically giving the same pair);
`none` entries stand for provider calls that returned no text. -/

/-- A parsed judgement: `(decision?, score?)` with the score an exact rational. -/
abbrev JudgeParse := Option Bool × Option ℚ

/-- The retry loop body of `_call_judge`: walk the per-retry parsed responses,
tracking `last_text`'s parse; return the first well-formed pair satisfying the
decision/score invariant, else fall back to the last parse (or `(nil, nil)`). -/
def judge_retry_loop (thr : ℚ) : List (Option JudgeParse) → Option JudgeParse → JudgeParse
  | [], last =>
    match last with
    | none => (none, none)
    | some p => p
  | none :: rest, last => judge_retry_loop thr rest last
  | some p :: rest, _ =>
    match p with
    | (some d, some s) =>
      if d && decide (s < thr) then judge_retry_loop thr rest (some p)
      else if !d && decide (thr ≤ s) then judge_retry_loop thr rest (some p)
      else (some d, some s)
    | _ => judge_retry_loop thr rest (some p)

/-- `_call_judge` restricted to its decision/score result (the raw text is not
needed by the claims): run the retry loop with no prior `last_text`. -/
def call_judge (thr : ℚ) (responses : List (Option JudgeParse)) : JudgeParse :=
  judge_retry_loop thr responses none

/-- The parse of the last non-`none` response (what the exhaustion fallback of
`_call_judge` would return), given the initial `last_text` parse. -/
def last_response : List (Option JudgeParse) → Option JudgeParse → Option JudgeParse
  | [], last => last
  | none :: rest, last => last_response rest last
  | some p :: rest, _ => last_response rest (some p)

/-! ### The main loop (`ChEMBLLLMQuery.query`) -/

/-- External actions performed during one loop iteration. -/
inductive Effect where
  | promptWriterCall
  | sqlWriterCall
  | dbExecute
  | judgeCall
deriving DecidableEq

/-- The data of one loop iteration that the stop test inspects: the judge's
decision and score as returned by `_call_judge`, and the materialized result
table `df` (`none` when execution failed). -/
structure IterOutcome (α : Type) where
  judge_decision : Option Bool
  judge_score : Option ℚ
  df : Option α
deriving DecidableEq

/-- The stop test at the end of each iteration of `query`:
`stop_by_threshold or stop_by_yes`. -/
def stop_check {α : Type} (thr : ℚ) (o : IterOutcome α) : Bool :=
  let stop_by_threshold :=
    match o.judge_score with
    | some s => decide (thr ≤ s)
    | none => false
  let stop_by_yes :=
    decide (o.judge_decision = some true) &&
      (match o.judge_score with
       | none => true
       | some s => decide (thr ≤ s))
  stop_by_yes || stop_by_threshold

/-- The external calls made by one iteration of the loop
(prompt-writer, SQL-writer, database execution, judge). -/
def iteration_effects : List Effect :=
  [Effect.promptWriterCall, Effect.sqlWriterCall, Effect.dbExecute, Effect.judgeCall]

/-- The `for attempt_idx in range(self.max_retries)` loop of `query`, one list
entry per iteration outcome (`max_retries = outcomes.length`): stop and return
`df` at the first iteration passing `stop_check`, else `none` after exhaustion.
The second component is the trace of external calls. -/
def query_loop {α : Type} (thr : ℚ) : List (IterOutcome α) → Option α × List Effect
  | [] => (none, [])
  | o :: rest =>
    if stop_check thr o then (o.df, iteration_effects)
    else ((query_loop thr rest).1, iteration_effects ++ (query_loop thr rest).2)

/-- `ChEMBLLLMQuery.query`: `uq = (question or "").strip(); if not uq: return None`
before anything else runs, then the iteration loop. -/
def query_run {α : Type} (question : String) (thr : ℚ)
    (outcomes : List (IterOutcome α)) : Option α × List Effect :=
  if pyStrip question = "" then (none, [])
  else query_loop thr outcomes

/-! ## Helper lemmas -/

theorem list_getD_map_range {α : Type} (f : Nat → α) (d : α) {i n : Nat} (hi : i < n) :
    ((List.range n).map f).getD i d = f i := by
  rw [List.getD_eq_getElem?_getD, List.getElem?_map, List.getElem?_range hi]
  rfl

theorem list_getD_mem {α : Type} {l : List α} {i : Nat} (d : α) (hi : i < l.length) :
    l.getD i d ∈ l := by
  rw [List.getD_eq_getElem l d hi]
  exact List.getElem_mem hi

theorem random_schedule_go_length (models : List String) (draws : Nat → Nat) :
    ∀ (rem j : Nat) (last : Int), (random_schedule_go models draws j last rem).length = rem := by
  intro rem
  induction rem with
  | zero => intro j last; rfl
  | succ k ih => intro j last; simp [random_schedule_go, ih]

theorem random_schedule_go_mem (models : List String) (draws : Nat → Nat)
    (hm : 0 < models.length) (hd : ∀ k, draws k < models.length) :
    ∀ (rem j : Nat) (last : Int) (x : String),
      x ∈ random_schedule_go models draws j last rem → x ∈ models := by
  intro rem
  induction rem with
  | zero => intro j last x hx; simp [random_schedule_go] at hx
  | succ k ih =>
    intro j last x hx
    simp only [random_schedule_go, List.mem_cons] at hx
    rcases hx with hx | hx
    · subst hx
      have hidx : (if (draws j : Int) = last && models.length > 1
          then (draws j + 1) % models.length else draws j) < models.length := by
        split
        · exact Nat.mod_lt _ hm
        · exact hd j
      exact list_getD_mem _ hidx
    · exact ih _ _ _ hx

theorem judge_retry_loop_accept_invariant (thr : ℚ) :
    ∀ (responses : List (Option JudgeParse)) (last : Option JudgeParse) (d : Bool) (s : ℚ),
      judge_retry_loop thr responses last = (some d, some s) →
      last_response responses last ≠ some (some d, some s) →
      (d = true ↔ thr ≤ s) := by
  intro responses
  induction responses with
  | nil =>
    intro last d s hres hfb
    cases last with
    | none => simp [judge_retry_loop] at hres
    | some p =>
      exfalso
      simp only [judge_retry_loop] at hres
      exact hfb (by simp [last_response, hres])
  | cons r rest ih =>
    intro last d s hres hfb
    cases r with
    | none =>
      exact ih last d s (by simpa [judge_retry_loop] using hres)
        (by simpa [last_response] using hfb)
    | some p =>
      obtain ⟨pd, ps⟩ := p
      have hfb' : last_response rest (some (pd, ps)) ≠ some (some d, some s) := by
        simpa [last_response] using hfb
      cases pd with
      | none =>
        exact ih _ d s (by simpa [judge_retry_loop] using hres) hfb'
      | some d0 =>
        cases ps with
        | none =>
          exact ih _ d s (by simpa [judge_retry_loop] using hres) hfb'
        | some s0 =>
          simp only [judge_retry_loop] at hres
          by_cases h1 : (d0 && decide (s0 < thr)) = true
          · rw [if_pos h1] at hres
            exact ih _ d s hres hfb'
          · rw [if_neg h1] at hres
            by_cases h2 : (!d0 && decide (thr ≤ s0)) = true
            · rw [if_pos h2] at hres
              exact ih _ d s hres hfb'
            · rw [if_neg h2] at hres
              simp only [Prod.mk.injEq, Option.some.injEq] at hres
              obtain ⟨rfl, rfl⟩ := hres
              cases d0 with
              | true =>
                simp only [Bool.true_and, decide_eq_true_eq] at h1
                exact iff_of_true rfl (le_of_not_lt h1)
              | false =>
                simp only [Bool.not_false, Bool.true_and, decide_eq_true_eq] at h2
                exact iff_of_false (by simp) h2

theorem toList_mk (cs : List Char) : (String.mk cs).toList = cs := rfl

theorem getLast?_cons_eq (a : Char) (l : List Char) :
    (a :: l).getLast? = some (l.getLastD a) := by
  induction l generalizing a with
  | nil => rfl
  | cons b t ih => rw [List.getLast?_cons_cons, ih, List.getLastD_cons]

theorem ws_lowerChar_eq {c : Char} (h : pyIsSpace c = true) : lowerChar c = c := by
  simp only [pyIsSpace, Bool.or_eq_true, decide_eq_true_eq] at h
  rcases h with ((((h | h) | h) | h) | h) | h <;> subst h <;> decide

theorem ws_not_digit {c : Char} (h : pyIsSpace c = true) : pyIsDigit c = false := by
  simp only [pyIsSpace, Bool.or_eq_true, decide_eq_true_eq] at h
  rcases h with ((((h | h) | h) | h) | h) | h <;> subst h <;> decide

theorem ws_not_word {c : Char} (h : pyIsSpace c = true) : isWordChar c = false := by
  simp only [pyIsSpace, Bool.or_eq_true, decide_eq_true_eq] at h
  rcases h with ((((h | h) | h) | h) | h) | h <;> subst h <;> decide

theorem digit_not_ws {c : Char} (h : pyIsDigit c = true) : pyIsSpace c = false := by
  cases hw : pyIsSpace c with
  | false => rfl
  | true => exact absurd h (by simp [ws_not_digit hw])

theorem not_ws_of_lower_mem {c : Char} {l : List Char}
    (hl : ∀ x ∈ l, pyIsSpace x = false) (h : lowerChar c ∈ l) : pyIsSpace c = false := by
  cases hw : pyIsSpace c with
  | false => rfl
  | true =>
    rw [ws_lowerChar_eq hw] at h
    exact absurd (hl c h) (by simp [hw])

theorem limit_chars_not_ws : ∀ x ∈ ("limit".toList), pyIsSpace x = false := by decide

theorem offset_chars_not_ws : ∀ x ∈ ("offset".toList), pyIsSpace x = false := by decide

theorem startsWithSeq_append_self (xs t : List Char) :
    startsWithSeq xs (xs ++ t) = true := by
  induction xs with
  | nil => rfl
  | cons c cs ih => simp [startsWithSeq, ih]

theorem hasSeq_of_startsWith {n h : List Char} (hs : startsWithSeq n h = true) :
    hasSeq n h = true := by
  cases h with
  | nil => exact hs
  | cons x xs => simp [hasSeq, hs]

theorem hasSeq_append_right {n b : List Char} (a : List Char)
    (hb : hasSeq n b = true) : hasSeq n (a ++ b) = true := by
  induction a with
  | nil => exact hb
  | cons x a ih => simp [hasSeq, ih]

theorem munchGo_append (p : Char → Bool) :
    ∀ (w rest : List Char) (last : Char), (∀ c ∈ w, p c = true) →
      (∀ c, rest.head? = some c → p c = false) →
      munchGo p last (w ++ rest) = (some (w.getLastD last), rest) := by
  intro w
  induction w with
  | nil =>
    intro rest last _ hr
    cases rest with
    | nil => rfl
    | cons c r =>
      simp only [List.nil_append, munchGo]
      rw [if_neg (by simp [hr c rfl])]
      rfl
  | cons a w ih =>
    intro rest last hw hr
    simp only [List.cons_append, munchGo, List.append_eq]
    rw [if_pos (hw a (by simp)), ih rest a (fun c hc => hw c (by simp [hc])) hr,
      List.getLastD_cons]

theorem munch1_append (p : Char → Bool) (w rest : List Char) (hw0 : w ≠ [])
    (hw : ∀ c ∈ w, p c = true) (hr : ∀ c, rest.head? = some c → p c = false) :
    munch1 p (w ++ rest) = some (w.getLast?, rest) := by
  cases w with
  | nil => exact absurd rfl hw0
  | cons a w' =>
    simp only [List.cons_append, munch1]
    rw [if_pos (hw a (by simp)),
      munchGo_append p w' rest a (fun c hc => hw c (by simp [hc])) hr,
      getLast?_cons_eq]

theorem munchGo_sound (p : Char → Bool) :
    ∀ (s : List Char) (last : Char) (q : Option Char) (r : List Char),
      munchGo p last s = (q, r) → ∃ w, s = w ++ r ∧ ∀ c ∈ w, p c = true := by
  intro s
  induction s with
  | nil =>
    intro last q r h
    simp only [munchGo] at h
    cases h
    exact ⟨[], rfl, by simp⟩
  | cons c rest ih =>
    intro last q r h
    simp only [munchGo] at h
    by_cases hc : p c = true
    · rw [if_pos hc] at h
      obtain ⟨w, hw1, hw2⟩ := ih c q r h
      exact ⟨c :: w, by simp [hw1], by
        intro x hx
        rcases List.mem_cons.mp hx with rfl | hx
        · exact hc
        · exact hw2 x hx⟩
    · rw [if_neg hc] at h
      cases h
      exact ⟨[], rfl, by simp⟩

theorem munch1_sound (p : Char → Bool) (s : List Char) (q : Option Char)
    (r : List Char) (h : munch1 p s = some (q, r)) :
    ∃ w, w ≠ [] ∧ s = w ++ r ∧ ∀ c ∈ w, p c = true := by
  cases s with
  | nil => simp [munch1] at h
  | cons c rest =>
    simp only [munch1] at h
    by_cases hc : p c = true
    · rw [if_pos hc] at h
      obtain ⟨w, hw1, hw2⟩ := munchGo_sound p rest c q r (Option.some.inj h)
      exact ⟨c :: w, by simp, by simp [hw1], by
        intro x hx
        rcases List.mem_cons.mp hx with rfl | hx
        · exact hc
        · exact hw2 x hx⟩
    · rw [if_neg hc] at h
      exact absurd h (by simp)

theorem dropLit_append :
    ∀ (pre : List Char) (rest : List Char) (prev : Option Char), pre ≠ [] →
      dropLit (pre.map lowerChar) prev (pre ++ rest) = some (pre.getLast?, rest) := by
  intro pre
  induction pre with
  | nil => intro rest prev h; exact absurd rfl h
  | cons a pre' ih =>
    intro rest prev _
    have hstep : dropLit (List.map lowerChar (a :: pre')) prev ((a :: pre') ++ rest)
        = dropLit (List.map lowerChar pre') (some a) (pre' ++ rest) := by
      simp [dropLit]
    rw [hstep]
    cases pre' with
    | nil => simp [dropLit]
    | cons b t =>
      rw [ih rest (some a) (by simp), List.getLast?_cons_cons]

theorem dropLit_sound :
    ∀ (cs : List Char) (prev : Option Char) (s : List Char) (p : Option Char)
      (r : List Char), dropLit cs prev s = some (p, r) →
      ∃ pre, s = pre ++ r ∧ pre.map lowerChar = cs := by
  intro cs
  induction cs with
  | nil =>
    intro prev s p r h
    simp only [dropLit, Option.some.injEq] at h
    cases h
    exact ⟨[], rfl, rfl⟩
  | cons c cs' ih =>
    intro prev s p r h
    cases s with
    | nil => simp [dropLit] at h
    | cons x xs =>
      simp only [dropLit] at h
      by_cases hx : lowerChar x = c
      · rw [if_pos hx] at h
        obtain ⟨pre, h1, h2⟩ := ih (some x) xs p r h
        exact ⟨x :: pre, by simp [h1], by simp [h2, hx]⟩
      · rw [if_neg hx] at h
        exact absurd h (by simp)

theorem foldl_lastOr :
    ∀ (x : List Char) (prev : Option Char),
      x.foldl (fun _ c => some c) prev = x.getLast?.or prev := by
  intro x
  induction x with
  | nil => intro prev; rfl
  | cons a x' ih =>
    intro prev
    rw [List.foldl_cons, ih (some a), getLast?_cons_eq, List.getLastD_eq_getLast?]
    cases x'.getLast? <;> rfl

theorem searchAux_append (toks : List RTok) :
    ∀ (x m : List Char) (prev : Option Char),
      (matchToks toks (x.foldl (fun _ c => some c) prev) m).isSome = true →
      searchAux toks prev (x ++ m) = true := by
  intro x
  induction x with
  | nil =>
    intro m prev h
    rw [List.foldl_nil] at h
    cases m with
    | nil => exact h
    | cons c r => simp only [List.nil_append, searchAux, h, Bool.true_or]
  | cons a x' ih =>
    intro m prev h
    rw [List.foldl_cons] at h
    simp only [List.cons_append, searchAux, List.append_eq]
    rw [ih m (some a) h]
    simp

theorem map_lower_ne_nil {lw lit : List Char} (h : lw.map lowerChar = lit)
    (hne : lit ≠ []) : lw ≠ [] := by
  intro hl
  subst hl
  exact hne h.symm

theorem head_not_ws_of_map_lower {lw lit : List Char} (h : lw.map lowerChar = lit)
    (hlit : ∀ x ∈ lit, pyIsSpace x = false) :
    ∀ c, lw.head? = some c → pyIsSpace c = false := by
  intro c hc
  cases lw with
  | nil => simp at hc
  | cons a t =>
    obtain rfl : a = c := by simpa using hc
    apply not_ws_of_lower_mem hlit
    rw [← h]
    simp

/-- Matching `\s+ lit \s+ \d+` against `w1 ++ lw ++ w2 ++ d1 ++ tl` consumes
exactly through the digits (the shared shape of both clause alternatives and of
each half of the offset form). -/
theorem wlwd_match (w1 lw w2 d1 tl lit : List Char)
    (hw1 : AllWS w1) (hw2 : AllWS w2) (hd1 : AllDigits d1)
    (hlw : lw.map lowerChar = lit) (hlitne : lit ≠ [])
    (hlit : ∀ x ∈ lit, pyIsSpace x = false)
    (htl : ∀ c, tl.head? = some c → pyIsSpace c = true)
    (prev : Option Char) (ts : List RTok) :
    matchToks (RTok.ws1 :: RTok.lit lit :: RTok.ws1 :: RTok.digits1 :: ts)
      prev (w1 ++ (lw ++ (w2 ++ (d1 ++ tl))))
      = matchToks ts d1.getLast? tl := by
  have hlwne : lw ≠ [] := map_lower_ne_nil hlw hlitne
  simp only [matchToks]
  rw [munch1_append pyIsSpace w1 (lw ++ (w2 ++ (d1 ++ tl))) hw1.1 hw1.2 ?hhead1]
  case hhead1 =>
    intro c hc
    rw [List.head?_append_of_ne_nil _ hlwne] at hc
    exact head_not_ws_of_map_lower hlw hlit c hc
  rw [Option.some_bind]
  rw [show (w1.getLast?, lw ++ (w2 ++ (d1 ++ tl))).2 = lw ++ (w2 ++ (d1 ++ tl)) from rfl]
  rw [← hlw, dropLit_append lw (w2 ++ (d1 ++ tl)) _ hlwne, Option.some_bind]
  rw [show (lw.getLast?, w2 ++ (d1 ++ tl)).2 = w2 ++ (d1 ++ tl) from rfl]
  rw [munch1_append pyIsSpace w2 (d1 ++ tl) hw2.1 hw2.2 ?hhead2]
  case hhead2 =>
    intro c hc
    rw [List.head?_append_of_ne_nil _ hd1.1] at hc
    cases d1 with
    | nil => simp at hc
    | cons a t =>
      have hac : a = c := by simpa using hc
      rw [← hac]
      exact digit_not_ws (hd1.2 a (by simp))
  rw [Option.some_bind]
  rw [show (w2.getLast?, d1 ++ tl).2 = d1 ++ tl from rfl]
  rw [munch1_append pyIsDigit d1 tl hd1.1 hd1.2 (fun c hc => ws_not_digit (htl c hc))]
  rw [Option.some_bind]

/-- Matching `\blimit\b` directly after a whitespace character succeeds at the
`limit` word of a clause. -/
theorem limit_gate_match (c0 : Char) (hc0 : pyIsSpace c0 = true)
    (lw rest2 : List Char)
    (hlw : lw.map lowerChar = "limit".toList)
    (hword : ∀ c ∈ lw, isWordChar c = true)
    (hr2 : ∀ c, rest2.head? = some c → isWordChar c = false) :
    (matchToks limit_word_toks (some c0) (lw ++ rest2)).isSome = true := by
  have hlwne : lw ≠ [] := map_lower_ne_nil hlw (by decide)
  simp only [limit_word_toks, matchToks]
  have hb1 : atBoundary (some c0) (lw ++ rest2) = true := by
    simp only [atBoundary, optWord]
    rw [ws_not_word hc0, List.head?_append_of_ne_nil _ hlwne]
    cases lw with
    | nil => exact absurd rfl hlwne
    | cons a t =>
      simp only [List.head?_cons]
      rw [hword a (by simp)]
      rfl
  rw [if_pos hb1, ← hlw, dropLit_append lw rest2 _ hlwne, Option.some_bind]
  have hb2 : atBoundary (lw.getLast?, rest2).1 (lw.getLast?, rest2).2 = true := by
    simp only [atBoundary]
    cases lw with
    | nil => exact absurd rfl hlwne
    | cons a t =>
      have hmem : t.getLastD a ∈ a :: t := by
        rw [List.getLastD_eq_getLast?]
        cases ht : t.getLast? with
        | none => simp
        | some z => simpa using Or.inr (List.mem_of_mem_getLast? ht)
      rw [getLast?_cons_eq,
        show optWord (some (t.getLastD a)) = isWordChar (t.getLastD a) from rfl,
        hword _ hmem]
      cases rest2 with
      | nil => rfl
      | cons c r =>
        rw [show (c :: r).head? = some c from rfl,
          show optWord (some c) = isWordChar c from rfl, hr2 c rfl]
        rfl
  rw [if_pos hb2]
  rfl

/-- The clause regex consumes an entire trailing clause, leaving nothing. -/
theorem clause_match_exact (clause : List Char) (hcl : IsLimitClause clause) :
    clause_match clause = some [] := by
  obtain ⟨w1, lw, w2, d1, tl, hw1, hw2, hd1, hlw, _, htl, rfl⟩ := hcl
  rcases htl with rfl | ⟨w3, ow, w4, d2, hw3, hw4, hd2, how, rfl⟩
  · have hshape : w1 ++ lw ++ w2 ++ d1 ++ ([] : List Char)
        = w1 ++ (lw ++ (w2 ++ (d1 ++ []))) := by
      simp [List.append_assoc]
    rw [hshape]
    simp only [clause_match, clause_toks_offset, clause_toks]
    rw [wlwd_match w1 lw w2 d1 [] _ hw1 hw2 hd1 hlw (by decide) limit_chars_not_ws
      (by intro c hc; simp at hc) none
      [RTok.ws1, RTok.lit ("offset".toList), RTok.ws1, RTok.digits1]]
    rw [wlwd_match w1 lw w2 d1 [] _ hw1 hw2 hd1 hlw (by decide) limit_chars_not_ws
      (by intro c hc; simp at hc) none []]
    simp [matchToks, munch1]
  · have howne : ow ≠ [] := map_lower_ne_nil how (by decide)
    have hshape : w1 ++ lw ++ w2 ++ d1 ++ (w3 ++ ow ++ w4 ++ d2)
        = w1 ++ (lw ++ (w2 ++ (d1 ++ (w3 ++ (ow ++ (w4 ++ (d2 ++ []))))))) := by
      simp [List.append_assoc]
    rw [hshape]
    simp only [clause_match, clause_toks_offset, clause_toks]
    rw [wlwd_match w1 lw w2 d1 (w3 ++ (ow ++ (w4 ++ (d2 ++ [])))) _ hw1 hw2 hd1 hlw
      (by decide) limit_chars_not_ws ?hw3head none
      [RTok.ws1, RTok.lit ("offset".toList), RTok.ws1, RTok.digits1]]
    case hw3head =>
      intro c hc
      rw [List.head?_append_of_ne_nil _ hw3.1] at hc
      exact hw3.2 c (by
        cases w3 with
        | nil => simp at hc
        | cons a t =>
          obtain rfl : a = c := by simpa using hc
          simp)
    rw [wlwd_match w3 ow w4 d2 [] _ hw3 hw4 hd2 how (by decide) offset_chars_not_ws
      (by intro c hc; simp at hc) d1.getLast? []]
    simp [matchToks]

theorem bsuf_getLast_some {l : List Char} (h : l ≠ []) :
    ∃ x, l.getLast? = some x ∧ x ∈ l := by
  cases l with
  | nil => exact absurd rfl h
  | cons a t =>
    refine ⟨t.getLastD a, getLast?_cons_eq a t, ?_⟩
    rw [List.getLastD_eq_getLast?]
    cases ht : t.getLast? with
    | none => simp
    | some z => simpa using Or.inr (List.mem_of_mem_getLast? ht)

theorem head_mem_of_head? {l : List Char} {c : Char} (h : l.head? = some c) : c ∈ l := by
  cases l with
  | nil => simp at h
  | cons a t =>
    have : a = c := by simpa using h
    rw [← this]
    simp

/-- `\s+limit…` cannot match at any position inside a body suffix that contains
no `limit` substring and does not end in whitespace, even with a whitespace-led
clause appended after it. -/
theorem ws_limit_fail (bsuf tail : List Char) (hb : bsuf ≠ [])
    (hno : hasSeq ("limit".toList) (bsuf.map lowerChar) = false)
    (hlast : ∀ x, bsuf.getLast? = some x → pyIsSpace x = false)
    (htail : ∀ c, tail.head? = some c → pyIsSpace c = true)
    (prev : Option Char) (ts : List RTok) :
    matchToks (RTok.ws1 :: RTok.lit ("limit".toList) :: ts) prev (bsuf ++ tail)
      = none := by
  simp only [matchToks]
  cases hm : munch1 pyIsSpace (bsuf ++ tail) with
  | none => rfl
  | some pr =>
    obtain ⟨q, r1⟩ := pr
    obtain ⟨w, hwne, hweq, hwws⟩ := munch1_sound pyIsSpace _ q r1 hm
    rw [Option.some_bind]
    show matchToks (RTok.lit ("limit".toList) :: ts) q r1 = none
    simp only [matchToks]
    cases hdl : dropLit ("limit".toList) q r1 with
    | none => rfl
    | some pr2 =>
      exfalso
      obtain ⟨p2, r2⟩ := pr2
      obtain ⟨pre, hr1, hpre⟩ := dropLit_sound _ q r1 p2 r2 hdl
      subst hr1
      by_cases hlen : bsuf.length ≤ w.length
      · obtain ⟨x, hx, hxm⟩ := bsuf_getLast_some hb
        have hbsuf_take : bsuf = w.take bsuf.length := by
          have h1 : (bsuf ++ tail).take bsuf.length = bsuf := List.take_left _ _
          rw [hweq, List.take_append_of_le_length hlen] at h1
          exact h1.symm
        have hxw : x ∈ w := List.mem_of_mem_take (hbsuf_take ▸ hxm)
        exact absurd (hlast x hx) (by simp [hwws x hxw])
      · push_neg at hlen
        have hmne : bsuf.drop w.length ≠ [] := by
          apply List.ne_nil_of_length_pos
          rw [List.length_drop]
          omega
        have hr1eq : bsuf.drop w.length ++ tail = pre ++ r2 := by
          have h1 := congrArg (List.drop w.length) hweq
          rw [List.drop_append_of_le_length (le_of_lt hlen), List.drop_left] at h1
          exact h1
        by_cases hplen : pre.length ≤ (bsuf.drop w.length).length
        · have hpre_take : pre = (bsuf.drop w.length).take pre.length := by
            have h1 : (pre ++ r2).take pre.length = pre := List.take_left _ _
            rw [← hr1eq, List.take_append_of_le_length hplen] at h1
            exact h1.symm
          have hmdecomp : bsuf.drop w.length
              = pre ++ (bsuf.drop w.length).drop pre.length := by
            conv_lhs => rw [← List.take_append_drop pre.length (bsuf.drop w.length)]
            rw [← hpre_take]
          have hbsufdecomp : bsuf = bsuf.take w.length ++ bsuf.drop w.length :=
            (List.take_append_drop _ _).symm
          apply absurd hno
          simp only [Bool.not_eq_false]
          rw [hbsufdecomp, List.map_append]
          apply hasSeq_append_right
          rw [hmdecomp, List.map_append, hpre]
          exact hasSeq_of_startsWith (startsWithSeq_append_self _ _)
        · push_neg at hplen
          have hpdne : pre.drop (bsuf.drop w.length).length ≠ [] := by
            apply List.ne_nil_of_length_pos
            rw [List.length_drop]
            omega
          have htail_eq : tail = pre.drop (bsuf.drop w.length).length ++ r2 := by
            have h1 := congrArg (List.drop (bsuf.drop w.length).length) hr1eq
            rw [List.drop_left, List.drop_append_of_le_length (le_of_lt hplen)] at h1
            exact h1
          obtain ⟨pd, t', hpd⟩ : ∃ pd t',
              pre.drop (bsuf.drop w.length).length = pd :: t' := by
            cases hc : pre.drop (bsuf.drop w.length).length with
            | nil => exact absurd hc hpdne
            | cons a b => exact ⟨a, b, rfl⟩
          have hhead : tail.head? = some pd := by
            rw [htail_eq, hpd]
            rfl
          have hpdmem : pd ∈ pre := by
            apply List.mem_of_mem_drop (n := (bsuf.drop w.length).length)
            rw [hpd]
            simp
          have hlow : lowerChar pd ∈ ("limit".toList) := by
            rw [← hpre]
            exact List.mem_map_of_mem lowerChar hpdmem
          have hcontra := not_ws_of_lower_mem limit_chars_not_ws hlow
          rw [htail pd hhead] at hcontra
          exact absurd hcontra (by simp)

/-- The clause regex matches nowhere strictly inside a clean body suffix. -/
theorem clause_match_fail (bsuf clause : List Char) (hb : bsuf ≠ [])
    (hno : hasSeq ("limit".toList) (bsuf.map lowerChar) = false)
    (hlast : ∀ x, bsuf.getLast? = some x → pyIsSpace x = false)
    (hclhead : ∀ c, clause.head? = some c → pyIsSpace c = true) :
    clause_match (bsuf ++ clause) = none := by
  simp only [clause_match, clause_toks_offset, clause_toks]
  rw [ws_limit_fail bsuf clause hb hno hlast hclhead none _,
    ws_limit_fail bsuf clause hb hno hlast hclhead none _]
  rfl

theorem replaceScan_nil (m : List Char → Option (List Char)) (repl : List Char)
    (fuel : Nat) : replaceScan m repl fuel [] = [] := by
  cases fuel <;> rfl

theorem clause_head_ws {clause : List Char} (hcl : IsLimitClause clause) :
    ∀ c, clause.head? = some c → pyIsSpace c = true := by
  obtain ⟨w1, lw, w2, d1, tl, hw1, _, _, _, _, _, rfl⟩ := hcl
  intro c hc
  rw [List.append_assoc, List.append_assoc, List.append_assoc,
    List.head?_append_of_ne_nil _ hw1.1] at hc
  exact hw1.2 c (head_mem_of_head? hc)

theorem clause_ne_nil {clause : List Char} (hcl : IsLimitClause clause) :
    clause ≠ [] := by
  obtain ⟨w1, lw, w2, d1, tl, hw1, _, _, _, _, _, rfl⟩ := hcl
  simp [hw1.1]

/-- Scanning a clean body followed by a trailing clause removes exactly the
clause. -/
theorem replaceScan_body_clause (clause : List Char) (hcl : IsLimitClause clause) :
    ∀ (body : List Char) (fuel : Nat),
      hasSeq ("limit".toList) (body.map lowerChar) = false →
      (∀ x, body.getLast? = some x → pyIsSpace x = false) →
      body.length < fuel →
      replaceScan clause_match [] fuel (body ++ clause) = body := by
  intro body
  induction body with
  | nil =>
    intro fuel _ _ hf
    cases fuel with
    | zero => omega
    | succ f =>
      rw [List.nil_append]
      cases hc : clause with
      | nil => exact absurd hc (clause_ne_nil hcl)
      | cons c r =>
        simp only [replaceScan]
        rw [← hc, clause_match_exact clause hcl]
        exact replaceScan_nil _ _ _
  | cons c rest ih =>
    intro fuel hno hlast hf
    cases fuel with
    | zero => omega
    | succ f =>
      have hfail : clause_match ((c :: rest) ++ clause) = none :=
        clause_match_fail (c :: rest) clause (by simp) hno hlast (clause_head_ws hcl)
      rw [List.cons_append] at hfail ⊢
      simp only [replaceScan]
      rw [hfail]
      show c :: replaceScan clause_match [] f (rest ++ clause) = c :: rest
      congr 1
      have hno' : hasSeq ("limit".toList) (rest.map lowerChar) = false := by
        simp only [List.map_cons, hasSeq, Bool.or_eq_false_iff] at hno
        exact hno.2
      refine ih f hno' ?_ (by simp at hf ⊢; omega)
      intro x hx
      apply hlast
      cases rest with
      | nil => simp at hx
      | cons b t =>
        rw [List.getLast?_cons_cons]
        exact hx

theorem noWsSemiPair_split :
    ∀ (a : List Char) (c : Char) (b : List Char),
      noWsSemiPair (a ++ c :: ';' :: b) = true → pyIsSpace c = false := by
  intro a
  induction a with
  | nil =>
    intro c b h
    simp only [List.nil_append, noWsSemiPair, Bool.and_eq_true, Bool.not_eq_true'] at h
    simpa using h.1
  | cons x a' ih =>
    intro c b h
    cases a' with
    | nil =>
      simp only [List.cons_append, List.nil_append, noWsSemiPair, Bool.and_eq_true] at h
      exact ih c b (by simpa [noWsSemiPair] using h.2)
    | cons y t =>
      simp only [List.cons_append, noWsSemiPair, Bool.and_eq_true] at h
      exact ih c b (by simpa [noWsSemiPair, List.cons_append] using h.2)

theorem noWsSemiPair_tail {c : Char} {rest : List Char}
    (h : noWsSemiPair (c :: rest) = true) : noWsSemiPair rest = true := by
  cases rest with
  | nil => rfl
  | cons b t =>
    simp only [noWsSemiPair, Bool.and_eq_true] at h
    exact h.2

/-- Scanning a body with no whitespace-semicolon pair leaves it unchanged. -/
theorem ws_semi_scan_id :
    ∀ (body : List Char) (fuel : Nat), noWsSemiPair body = true → body.length < fuel →
      replaceScan ws_semi_match [';'] fuel body = body := by
  intro body
  induction body with
  | nil => intro fuel _ _; exact replaceScan_nil _ _ _
  | cons c rest ih =>
    intro fuel h hf
    cases fuel with
    | zero => omega
    | succ f =>
      have hnone : ws_semi_match (c :: rest) = none := by
        unfold ws_semi_match
        cases hm : munch1 pyIsSpace (c :: rest) with
        | none => rfl
        | some pr =>
          obtain ⟨q, r1⟩ := pr
          rw [Option.some_bind]
          cases hr1 : r1 with
          | nil => rfl
          | cons h1 t1 =>
            show (if h1 = ';' then some t1 else none) = none
            by_cases hsemi : h1 = ';'
            · exfalso
              subst hsemi
              obtain ⟨w, hwne, hweq, hwws⟩ := munch1_sound pyIsSpace _ q r1 hm
              rcases List.eq_nil_or_concat w with rfl | ⟨winit, wlast, rfl⟩
              · exact hwne rfl
              · rw [hr1] at hweq
                have hdecomp : c :: rest = winit ++ wlast :: ';' :: t1 := by
                  rw [hweq]
                  simp
                have hlastws : pyIsSpace wlast = true := hwws wlast (by simp)
                have := noWsSemiPair_split winit wlast t1 (by rw [← hdecomp]; exact h)
                simp [hlastws] at this
            · rw [if_neg hsemi]
      simp only [replaceScan]
      rw [hnone]
      show c :: replaceScan ws_semi_match [';'] f rest = c :: rest
      congr 1
      exact ih f (noWsSemiPair_tail h) (by simp at hf ⊢; omega)

/-- `strip()` is the identity on a body with no leading or trailing whitespace. -/
theorem pyStrip_id (body : List Char)
    (hh : ∀ c, body.head? = some c → pyIsSpace c = false)
    (hl : ∀ c, body.getLast? = some c → pyIsSpace c = false) :
    pyStrip (String.mk body) = String.mk body := by
  unfold pyStrip
  rw [toList_mk]
  have h1 : body.dropWhile pyIsSpace = body := by
    cases body with
    | nil => rfl
    | cons c r =>
      rw [List.dropWhile_cons, hh c rfl]
      simp
  rw [h1]
  have h2 : body.reverse.dropWhile pyIsSpace = body.reverse := by
    cases hb : body.reverse with
    | nil => rfl
    | cons c r =>
      rw [List.dropWhile_cons]
      have hcl : body.getLast? = some c := by
        rw [← List.head?_reverse, hb]
        rfl
      rw [hl c hcl]
      simp
  rw [h2, List.reverse_reverse]

/-! ## Claim theorems -/

/-- C3: the cicada policy of `generate_model_schedule` is deterministic (it does not
depend on the random draws) and matches the spec's reference formula
`schedule[i] = models[((i * primes[i mod |primes|]) mod 233) mod |models|]` where
`primes` is the sieve-produced list of all primes up to 100. -/
theorem cicada_schedule_reference (models : List String) (hm : models ≠ [])
    (n i : Nat) (hi : i < n) (d d' : Nat → Nat) :
    generate_model_schedule n models "cicada" d
      = generate_model_schedule n models "cicada" d' ∧
    ∃ l, generate_model_schedule n models "cicada" d = some l ∧ l.length = n ∧
      l.getD i "" =
        models.getD
          ((i * spec_primes.getD (i % spec_primes.length) 0) % 233 % models.length) "" := by
  have h0 : ¬ models.length = 0 := fun h => hm (List.length_eq_zero.mp h)
  constructor
  · rfl
  · refine ⟨(cic_schedule n).map (fun pos => models.getD (pos % models.length) ""), ?_, ?_, ?_⟩
    · unfold generate_model_schedule
      rw [if_neg h0, if_neg (by decide), if_neg (by decide), if_pos rfl]
    · simp [cic_schedule]
    · have hp : cic_find_primes 100 = spec_primes := by decide
      have hsch : cic_schedule n = (List.range n).map
          (fun i => (i * spec_primes.getD (i % spec_primes.length) 0) % 233) := by
        simp [cic_schedule, hp]
      rw [hsch, List.map_map]
      exact list_getD_map_range _ _ hi

/-- Witness for `cicada_schedule_reference` at concrete inputs. -/
theorem cicada_schedule_reference_witness :
    generate_model_schedule 5 ["a", "b", "c"] "cicada" (fun _ => 0)
      = generate_model_schedule 5 ["a", "b", "c"] "cicada" (fun _ => 7) ∧
    ∃ l, generate_model_schedule 5 ["a", "b", "c"] "cicada" (fun _ => 0) = some l ∧
      l.length = 5 ∧
      l.getD 3 "" =
        ["a", "b", "c"].getD
          ((3 * spec_primes.getD (3 % spec_primes.length) 0) % 233 % ["a", "b", "c"].length) "" :=
  cicada_schedule_reference ["a", "b", "c"] (by decide) 5 3 (by decide)
    (fun _ => 0) (fun _ => 7)

/-- C4: for a non-empty model list, any count `n ≥ 0` and any of the three cycling
policies (quantifying over every possible sequence of random draws), the schedule
has length exactly `n` and all its elements belong to the model list; the orderly
policy selects `models[i mod |models|]`. -/
theorem schedule_length_and_membership (models : List String) (hm : models ≠ [])
    (n : Nat) (draws : Nat → Nat) (hd : ∀ k, draws k < models.length)
    (policy : String)
    (hp : policy = "orderly" ∨ policy = "random" ∨ policy = "cicada") :
    ∃ l, generate_model_schedule n models policy draws = some l ∧
      l.length = n ∧ (∀ x ∈ l, x ∈ models) ∧
      (policy = "orderly" →
        ∀ i, i < n → l.getD i "" = models.getD (i % models.length) "") := by
  have h0 : ¬ models.length = 0 := fun h => hm (List.length_eq_zero.mp h)
  have hmlen : 0 < models.length := Nat.pos_of_ne_zero h0
  rcases hp with hp | hp | hp <;> subst hp
  · refine ⟨(List.range n).map (fun i => models.getD (i % models.length) ""),
      ?_, ?_, ?_, ?_⟩
    · unfold generate_model_schedule
      rw [if_neg h0, if_neg (by decide), if_pos rfl]
    · simp
    · intro x hx
      rcases List.mem_map.mp hx with ⟨i, _, rfl⟩
      exact list_getD_mem _ (Nat.mod_lt _ hmlen)
    · intro _ i hi
      exact list_getD_map_range _ _ hi
  · refine ⟨random_schedule_go models draws 0 (-1) n, ?_, ?_, ?_, ?_⟩
    · unfold generate_model_schedule
      rw [if_neg h0, if_pos rfl]
    · exact random_schedule_go_length models draws n 0 (-1)
    · intro x hx
      exact random_schedule_go_mem models draws hmlen hd n 0 (-1) x hx
    · intro h; exact absurd h (by decide)
  · refine ⟨(cic_schedule n).map (fun pos => models.getD (pos % models.length) ""),
      ?_, ?_, ?_, ?_⟩
    · unfold generate_model_schedule
      rw [if_neg h0, if_neg (by decide), if_neg (by decide), if_pos rfl]
    · simp [cic_schedule]
    · intro x hx
      rcases List.mem_map.mp hx with ⟨pos, _, rfl⟩
      exact list_getD_mem _ (Nat.mod_lt _ hmlen)
    · intro h; exact absurd h (by decide)

/-- Witness for `schedule_length_and_membership` at concrete inputs. -/
theorem schedule_length_and_membership_witness :
    ∃ l, generate_model_schedule 3 ["a", "b"] "orderly" (fun _ => 0) = some l ∧
      l.length = 3 ∧ (∀ x ∈ l, x ∈ ["a", "b"]) ∧
      ("orderly" = "orderly" →
        ∀ i, i < 3 → l.getD i "" = ["a", "b"].getD (i % ["a", "b"].length) "") :=
  schedule_length_and_membership ["a", "b"] (by decide) 3 (fun _ => 0)
    (fun _ => Nat.succ_pos 1) "orderly" (Or.inl rfl)

/-- C1 (amended): with a non-blank question, `query` stops at the first iteration
whose judgement passes the stop test (`judge_score ≥ threshold`, or decision YES
with score nil or ≥ threshold) and returns that iteration's `df` — the
materialized table when one exists, and `nil` when that iteration's execution
produced no table; after `max_retries` iterations without a stop it returns
`nil` (exhaustion). -/
theorem query_first_stop {α : Type} (q : String) (hq : ¬ pyStrip q = "") (thr : ℚ)
    (outcomes : List (IterOutcome α)) :
    (query_run q thr outcomes).1 = (outcomes.find? (stop_check thr)).bind IterOutcome.df ∧
    ((∀ o ∈ outcomes, stop_check thr o = false) → (query_run q thr outcomes).1 = none) := by
  have hmain : (query_loop thr outcomes).1
      = (outcomes.find? (stop_check thr)).bind IterOutcome.df := by
    induction outcomes with
    | nil => rfl
    | cons o rest ih =>
      by_cases h : stop_check thr o = true
      · rw [List.find?_cons_of_pos _ h]
        simp [query_loop, h]
      · rw [List.find?_cons_of_neg _ h]
        simp [query_loop, h, ih]
  have hrun : query_run q thr outcomes = query_loop thr outcomes := by
    unfold query_run
    rw [if_neg hq]
  refine ⟨by rw [hrun, hmain], ?_⟩
  intro hall
  have hnone : outcomes.find? (stop_check thr) = none :=
    List.find?_eq_none.mpr (fun x hx => by simp [hall x hx])
  rw [hrun, hmain, hnone]
  rfl

/-- Witness for `query_first_stop` at concrete inputs (threshold 1; the first
iteration scores 0 and does not stop, the second scores 1 and stops with its
table). -/
theorem query_first_stop_witness :
    (query_run "list five drugs" (1 : ℚ)
      [⟨some false, some 0, some 3⟩, ⟨some true, some 1, some 7⟩]).1
      = some (7 : Nat) := by
  have h := query_first_stop "list five drugs" (by decide) (1 : ℚ)
    [⟨some false, some 0, some (3 : Nat)⟩, ⟨some true, some 1, some 7⟩]
  rw [h.1]
  decide

/-- C1 counterexample: a run whose first iteration's judgement passes the stop
test (decision YES, score 1 ≥ threshold 1) but whose execution produced no table
returns `nil` — not the materialized result table the claim promises, and `nil`
without exhaustion. -/
theorem query_stop_without_table :
    stop_check (1 : ℚ) (⟨some true, some 1, none⟩ : IterOutcome Nat) = true ∧
    (query_run "list approved drugs" (1 : ℚ)
      [(⟨some true, some 1, none⟩ : IterOutcome Nat)]).1 = none := by
  decide

/-- C2 counterexample: with threshold 1 and every retry's response parsing to
decision YES with score 0 (an invariant-violating pair), `_call_judge` exhausts
its retries and the post-exhaustion fallback returns exactly that non-nil pair:
decision = YES yet score < threshold. -/
theorem call_judge_fallback_violation :
    call_judge (1 : ℚ) [some (some true, some 0)] = (some true, some 0) ∧
    (0 : ℚ) < 1 := by
  constructor
  · rfl
  · norm_num

/-- C2 (amended): every well-formed pair `_call_judge` accepts inside its retry
loop satisfies decision = YES ↔ score ≥ threshold; only the exhaustion fallback
(which re-parses the last response unvalidated) can return a violating pair. -/
theorem call_judge_accept_invariant (thr : ℚ) (responses : List (Option JudgeParse))
    (d : Bool) (s : ℚ) (h : call_judge thr responses = (some d, some s))
    (hfb : last_response responses none ≠ some (some d, some s)) :
    (d = true ↔ thr ≤ s) :=
  judge_retry_loop_accept_invariant thr responses none d s h hfb

/-- Witness for `call_judge_accept_invariant` at concrete inputs. -/
theorem call_judge_accept_invariant_witness :
    (true = true ↔ (1 : ℚ) ≤ 1) :=
  call_judge_accept_invariant (1 : ℚ)
    [some (some true, some 1), some (some false, some 0)]
    true 1 (by decide) (by decide)

/-- C10: a question that is empty or whitespace-only makes `query` return `nil`
immediately: no prompt-writer, SQL-writer or judge call, no SQL execution, no
file write — the effect trace is empty. -/
theorem query_blank_question {α : Type} (q : String) (hq : pyStrip q = "") (thr : ℚ)
    (outcomes : List (IterOutcome α)) :
    query_run q thr outcomes = (none, []) := by
  unfold query_run
  rw [if_pos hq]

/-- Witness for `query_blank_question` at concrete inputs. -/
theorem query_blank_question_witness :
    query_run "  \t " (1 : ℚ) [(⟨some true, some 1, some 5⟩ : IterOutcome Nat)]
      = (none, []) :=
  query_blank_question "  \t " (by decide) (1 : ℚ) _

/-- C6 (code bug): the message builders render `iterations[-history_window:]`.
For every window `M ≥ 1` this is at most `M` iteration blocks, but for the
configured window `M = 0` Python's `[-0:]` slice is the whole list, so every
prior iteration block is rendered (here: 2 blocks for a window of 0, where the
claim allows at most 0). -/
theorem history_window_zero_bug :
    (history_window_blocks 0 [(), ()]).length = 2 ∧
    ∀ (m : Int) (l : List Unit),
      (history_window_blocks m l).length ≤ (if 1 ≤ m then m.toNat else l.length) := by
  constructor
  · decide
  · intro m l
    unfold history_window_blocks pyTailSlice
    by_cases h1 : (0 : Int) < m
    · rw [if_pos h1, if_pos (show (1 : Int) ≤ m by omega), List.length_drop]
      omega
    · rw [if_neg h1, if_neg (show ¬ (1 : Int) ≤ m by omega)]
      by_cases h2 : m = 0
      · rw [if_pos h2]
      · rw [if_neg h2, List.length_drop]
        omega

/-- Case analysis of `position_label`: head iff `idx < 3`; tail iff `idx ≥ n − 3`
and `idx ≥ 3` (head wins the overlap); middle otherwise. -/
theorem position_label_cases (n idx : Nat) :
    (position_label n idx = "head" ↔ idx < 3) ∧
    (position_label n idx = "tail" ↔ (3 ≤ idx ∧ n - 3 ≤ idx)) ∧
    (position_label n idx = "middle" ↔ (3 ≤ idx ∧ idx < n - 3)) := by
  unfold position_label
  by_cases h1 : idx < 3
  · rw [if_pos h1]
    refine ⟨⟨fun _ => h1, fun _ => rfl⟩, ?_, ?_⟩
    · exact ⟨fun h => absurd h (by decide), fun h3 => absurd h1 (by omega)⟩
    · exact ⟨fun h => absurd h (by decide), fun h3 => absurd h1 (by omega)⟩
  · rw [if_neg h1]
    by_cases h2 : n - 3 ≤ idx
    · rw [if_pos h2]
      exact ⟨⟨fun h => absurd h (by decide), fun h3 => absurd h3 h1⟩,
             ⟨fun _ => ⟨by omega, h2⟩, fun _ => rfl⟩,
             ⟨fun h => absurd h (by decide), fun h3 => absurd h2 (by omega)⟩⟩
    · rw [if_neg h2]
      exact ⟨⟨fun h => absurd h (by decide), fun h3 => absurd h3 h1⟩,
             ⟨fun h => absurd h (by decide), fun h3 => absurd h3.2 h2⟩,
             ⟨fun _ => ⟨by omega, by omega⟩, fun _ => rfl⟩⟩

/-- C7 (amended): every row emitted by the shared labelling loop of
`sample_result_rows` / `sample_result_rows_stratified` carries the positional
label of its original 0-based index `i` in the `n`-row table: `head` iff
`i < 3`; `tail` iff `i ≥ n − 3` and `i ≥ 3` (head takes precedence when the two
ranges overlap, i.e. when `n < 6`); `middle` otherwise. -/
theorem sample_position_labels (n : Nat) (sampled : List (List (Option String)))
    (indices : List Nat) (max_cell_len : Nat) (p : String × List String)
    (hp : p ∈ emit_sample_rows n sampled indices max_cell_len) :
    ∃ idx, p.1 = position_label n idx ++ " (row " ++ toString (idx + 1) ++ ")" ∧
      (position_label n idx = "head" ↔ idx < 3) ∧
      (position_label n idx = "tail" ↔ (3 ≤ idx ∧ n - 3 ≤ idx)) ∧
      (position_label n idx = "middle" ↔ (3 ≤ idx ∧ idx < n - 3)) := by
  obtain ⟨li, hli, rfl⟩ := List.mem_map.mp hp
  exact ⟨indices.getD li li, rfl, (position_label_cases n _).1,
    (position_label_cases n _).2.1, (position_label_cases n _).2.2⟩

/-- Witness for `sample_position_labels` at concrete inputs. -/
theorem sample_position_labels_witness :
    ∃ idx, (("head (row 1)", ["x"]) : String × List String).1
        = position_label 4 idx ++ " (row " ++ toString (idx + 1) ++ ")" ∧
      (position_label 4 idx = "head" ↔ idx < 3) ∧
      (position_label 4 idx = "tail" ↔ (3 ≤ idx ∧ 4 - 3 ≤ idx)) ∧
      (position_label 4 idx = "middle" ↔ (3 ≤ idx ∧ idx < 4 - 3)) :=
  sample_position_labels 4 [[some "x"]] [0] 60 ("head (row 1)", ["x"]) (by decide)

/-- C7 counterexample: in the sample emitted from a 4-row table, the row at
0-based index 1 satisfies `i ≥ n − 3` yet is labelled `head (row 2)` — so
"tail if and only if `i ≥ n − 3`" fails as stated. -/
theorem sample_labels_counterexample :
    ((sample_result_rows [[some "a"], [some "b"], [some "c"], [some "d"]] 9 60).getD
        1 ("", [])).1 = "head (row 2)" ∧
    4 - 3 ≤ 1 ∧ ("head (row 2)" : String) ≠ "tail (row 2)" := by
  decide

/-- C8 (code bug): with the arguments `query` passes (min 200, max 1000,
width 60), the cell width returned by `_choose_sample_params` is always 60 —
the 60 → 50/40/30 reduction branch requires `target < 200 ≤ row count`, which
is impossible because `target = min(cap, max(200, …)) ≥ 200` whenever the row
count is ≥ 200 — and on a 1000-row table with `available_tokens = 100` the
returned sample size is 200, exceeding the budget cap
`max(1, int(0.6 · available) // tokens_per_row) = 7`. -/
theorem choose_sample_params_bug :
    (∀ rows avail, (choose_sample_params rows avail 200 1000 60).2 = 60) ∧
    (choose_sample_params (List.replicate 1000 [some "abcdefgh"]) (some 100) 200 1000 60
        = (200, 60) ∧
      max 1 ((100 * 3 / 5)
        / estimate_sample_row_tokens (List.replicate 1000 [some "abcdefgh"]) 60 200)
        = 7) := by
  refine ⟨?_, by decide, by decide⟩
  intro rows avail
  simp only [choose_sample_params]
  split
  · rfl
  · split
    · rfl
    · split
      · rfl
      · split
        · rfl
        · split
          · next hguard =>
            exfalso
            exact absurd hguard.1
              (not_lt.mpr (le_min (le_min hguard.2 (by norm_num)) (le_max_left _ _)))
          · rfl

/-- C9: the embedded `parse_judge_output` is total and all-or-nothing: for every
decode outcome it returns either `(nil, nil)` or a decision in {YES, NO}
together with a score in [0, 1]; a JSON parse failure, a missing field, an
unrecognized decision and an out-of-range score each yield `(nil, nil)`. -/
theorem parse_judge_output_all_or_nothing (decoded : Option PyDict) :
    parse_judge_output decoded = (none, none) ∨
    ∃ d q, parse_judge_output decoded = (some d, some q) ∧ 0 ≤ q ∧ q ≤ 1 := by
  cases decoded with
  | none => exact Or.inl rfl
  | some obj =>
    simp only [parse_judge_output]
    cases hf : pyFloat (dictGet obj "score") with
    | none =>
      left
      simp only [Option.none_bind]
      split <;> simp_all
    | some q =>
      simp only [Option.some_bind]
      by_cases hq : 0 ≤ q ∧ q ≤ 1
      · rw [if_pos hq]
        by_cases h1 :
            pyStrUpperStrip ((dictGet obj "decision").getD (PyVal.pstr "")) = "YES"
        · right
          exact ⟨true, q, by rw [if_pos h1], hq.1, hq.2⟩
        · by_cases h2 :
              pyStrUpperStrip ((dictGet obj "decision").getD (PyVal.pstr "")) = "NO"
          · right
            exact ⟨false, q, by rw [if_neg h1, if_pos h2], hq.1, hq.2⟩
          · left
            rw [if_neg h1, if_neg h2]
      · rw [if_neg hq]
        left
        split <;> simp_all

/-- C5: `_strip_unrequested_limit` returns the SQL unmodified when the option
is disabled or when `UQ + "\n" + UP` matches one of the thirteen cap/top-N
patterns case-insensitively; otherwise a trailing `LIMIT n [OFFSET m]` clause
is removed — for a statement body with no other `limit` occurrence (and no
whitespace-semicolon or surrounding whitespace artefacts for the final
cleanup), the result is exactly the body. -/
theorem strip_unrequested_limit_spec :
    (∀ sql uq up, strip_unrequested_limit false sql uq up = sql) ∧
    (∀ sql uq up, user_requested_limit (uq ++ "\n" ++ up) = true →
      strip_unrequested_limit true sql uq up = sql) ∧
    (∀ (body clause : List Char) (uq up : String),
      user_requested_limit (uq ++ "\n" ++ up) = false →
      IsLimitClause clause → BodyClean body →
      strip_unrequested_limit true (String.mk (body ++ clause)) uq up
        = String.mk body) := by
  refine ⟨fun sql uq up => rfl, ?_, ?_⟩
  · intro sql uq up h
    unfold strip_unrequested_limit
    rw [if_neg (by simp), if_pos h]
  · intro body clause uq up hreq hcl hbc
    obtain ⟨hno, hsemi, hhead, hlastc⟩ := hbc
    have hgate : searchAux limit_word_toks none (body ++ clause) = true := by
      obtain ⟨w1, lw, w2, d1, tl, hw1, hw2, hd1, hlw, hword, htl, hcleq⟩ := hcl
      subst hcleq
      have hshape : body ++ (w1 ++ lw ++ w2 ++ d1 ++ tl)
          = (body ++ w1) ++ (lw ++ (w2 ++ (d1 ++ tl))) := by
        simp [List.append_assoc]
      rw [hshape]
      apply searchAux_append
      rw [foldl_lastOr]
      obtain ⟨x, hx, hxm⟩ := bsuf_getLast_some hw1.1
      rw [List.getLast?_append_of_ne_nil _ hw1.1, hx,
        show (some x).or none = some x from rfl]
      apply limit_gate_match x (hw1.2 x hxm) lw (w2 ++ (d1 ++ tl)) hlw hword
      intro c hc
      rw [List.head?_append_of_ne_nil _ hw2.1] at hc
      exact ws_not_word (hw2.2 c (head_mem_of_head? hc))
    unfold strip_unrequested_limit
    rw [if_neg (by simp), if_neg (by simp [hreq]), if_neg (by simp [toList_mk, hgate])]
    show pyStrip (String.mk (py_subn_all ws_semi_match [';']
      (py_subn_all clause_match [] (String.mk (body ++ clause)).toList))) = String.mk body
    rw [toList_mk]
    have h1 : py_subn_all clause_match [] (body ++ clause) = body := by
      unfold py_subn_all
      apply replaceScan_body_clause clause hcl body _ hno hlastc
      rw [List.length_append]
      omega
    rw [h1]
    have h2 : py_subn_all ws_semi_match [';'] body = body := by
      unfold py_subn_all
      exact ws_semi_scan_id body (body.length + 1) hsemi (by omega)
    rw [h2]
    exact pyStrip_id body hhead hlastc

/-- Witness for `strip_unrequested_limit_spec` at concrete inputs: with no cap
requested, `select a from t limit 5` loses its trailing clause. -/
theorem strip_unrequested_limit_spec_witness :
    strip_unrequested_limit true
        (String.mk ("select a from t".toList ++ " limit 5".toList))
        "what compounds" "all of them"
      = String.mk ("select a from t".toList) :=
  strip_unrequested_limit_spec.2.2 ("select a from t".toList) (" limit 5".toList)
    "what compounds" "all of them" (by decide)
    ⟨[' '], "limit".toList, [' '], ['5'], [],
      ⟨by decide, by decide⟩, ⟨by decide, by decide⟩, ⟨by decide, by decide⟩,
      by decide, by decide, Or.inl rfl, by decide⟩
    ⟨by decide, by decide, by decide, by decide⟩

end ChemblV1
